import Mathlib

/-!
# Verification of the `tile-xenium` transcript tiling tool

A shallow embedding of `src/lib.rs` of the `tile-xenium` repository.

Modelling conventions:
* Rust `&str` / `String` values are modelled as `List Char`.
* Rust `f64` coordinates are modelled as `ℚ`; the program only adds,
  subtracts, compares, floors and ceils coordinate values.
* Rust `u32` / `usize` values are modelled as `ℕ`, with explicit `< 2 ^ 32`
  (resp. `< 2 ^ 64`) range checks where the original code can overflow or
  where parsing rejects out-of-range numbers.
* A Rust panic (`unwrap` on a failing computation, unbounded recursion) is
  modelled by `Option`/`Except` failure; the unbounded recursion of
  `write_tile` and the `while` loops of `run` take an explicit fuel
  argument, with fuel exhaustion standing for non-termination.
* The polars `DataFrame` is modelled as a list of typed records, one per
  row; the column operations of the source act row-wise on these records.
-/

namespace TileXenium

/-- Rust strings are modelled as lists of characters. -/
abbrev Str := List Char

/-- `2 ^ 32`, the number of values of a Rust `u32`. -/
def U32 : ℕ := 2 ^ 32

/-- `2 ^ 64`, the number of values of a Rust `usize` (64-bit target). -/
def U64 : ℕ := 2 ^ 64

/-- Value of an ASCII decimal digit, `none` for any other character. -/
def digitVal (c : Char) : Option ℕ :=
  if '0' ≤ c ∧ c ≤ '9' then some (c.toNat - 48) else none

/-- Accumulating decimal parser over a list of characters: fails on the
first non-digit character. -/
def parseNatDigits : Str → ℕ → Option ℕ
  | [], acc => some acc
  | c :: cs, acc =>
    match digitVal c with
    | some d => parseNatDigits cs (acc * 10 + d)
    | none => none

/-- Model of Rust's `str::parse::<uN>()` (`u32::from_str` etc.): an optional
leading `+`, then one or more ASCII decimal digits, whose value must be
smaller than `bound`; anything else is a parse error. -/
def parseUnsigned (bound : ℕ) (s : Str) : Option ℕ :=
  let digits : Str :=
    match s with
    | '+' :: rest => rest
    | _ => s
  match digits with
  | [] => none
  | _ =>
    match parseNatDigits digits 0 with
    | some n => if n < bound then some n else none
    | none => none

/-- Model of Rust's `str::split("-")` as used in `decode_cell_id`: the
list of segments of the string between occurrences of `'-'`. -/
def splitOnDash : Str → List Str
  | [] => [[]]
  | c :: cs =>
    if c = '-' then [] :: splitOnDash cs
    else
      match splitOnDash cs with
      | [] => [[c]]
      | p :: ps => (c :: p) :: ps

/-- `shifted_hex_to_hex_array` from `src/lib.rs`: map each character `c`
to `(c as i32) - ('a' as i32)`. -/
def shifted_hex_to_hex_array (shifted_hex_digits : Str) : List ℤ :=
  shifted_hex_digits.map (fun c => (c.toNat : ℤ) - 97)

/-- The 32-bit two's-complement bit pattern of an `i32`, as a natural
number: Rust's `format!` with the `X` specifier prints exactly the hex
digits of this value. -/
def u32bits (x : ℤ) : ℕ := (x % (2 ^ 32 : ℤ)).toNat

/-- Big-endian base-16 digits of `n`, no leading zeros; the first argument
is fuel (any fuel `≥ n` and `≥ 1` is exact for `n > 0`). -/
def hexDigitsAux : ℕ → ℕ → List ℕ
  | 0, _ => []
  | fuel + 1, n => if n = 0 then [] else hexDigitsAux fuel (n / 16) ++ [n % 16]

/-- Big-endian base-16 digits of `n` as printed by Rust's `X` format
specifier applied to a nonnegative value: `[0]` for `0`, otherwise the
digits of `n` without leading zeros. -/
def hexDigitsOfNat (n : ℕ) : List ℕ :=
  if n = 0 then [0] else hexDigitsAux n n

/-- The base-16 digit string that Rust's `format!` with the `X` specifier
prints for the `i32` value `x` (digits as their numeric values). -/
def hexDigitsOfInt (x : ℤ) : List ℕ := hexDigitsOfNat (u32bits x)

/-- Numeric value of a big-endian list of base-16 digits, as computed by
`u32::from_str_radix(_, 16)` before its range check. -/
def hexFold (ds : List ℕ) : ℕ := ds.foldl (fun acc d => acc * 16 + d) 0

/-- `convert_hex_array_to_int` from `src/lib.rs`: format every entry of
the array with the `X` specifier, concatenate, and parse the result with
`u32::from_str_radix(_, 16)`.  `.unwrap()` on the empty string or on a
value `≥ 2 ^ 32` panics, modelled by `none`. -/
def convert_hex_array_to_int (hex_array : List ℤ) : Option ℕ :=
  let ds := (hex_array.map hexDigitsOfInt).flatten
  match ds with
  | [] => none
  | _ => if hexFold ds < U32 then some (hexFold ds) else none

/-- `decode_cell_id` from `src/lib.rs`.  A string that parses as a `u32`
is returned unchanged; otherwise the string is split on `'-'`, the
segment after the first dash must parse as a `usize` (the dataset suffix,
discarded), and the part before the first dash is decoded as a shifted
hex digit sequence.  Every panic of the original is modelled by `none`. -/
def decode_cell_id (cell_id : Str) : Option ℕ :=
  match parseUnsigned U32 cell_id with
  | some numeric_id => some numeric_id
  | none =>
    match splitOnDash cell_id with
    | shifted_hex_digits :: suffix :: _ =>
      match parseUnsigned U64 suffix with
      | some _ => convert_hex_array_to_int (shifted_hex_to_hex_array shifted_hex_digits)
      | none => none
    | _ => none

/-- One row of the transcript table before cell-id decoding, with the
eight columns selected by `run`.  `overlaps_nucleus` is the 0/1 flag the
source compares against the literal `0`. -/
structure Row where
  transcript_id : ℕ
  cell_id : Str
  overlaps_nucleus : ℕ
  feature_name : Str
  x_location : ℚ
  y_location : ℚ
  z_location : ℚ
  qv : ℚ
deriving DecidableEq

/-- One row of the transcript table after `decode_cells` replaced the
`cell_id` column by its decoded `u32` value. -/
structure DRow where
  transcript_id : ℕ
  cell_id : ℕ
  overlaps_nucleus : ℕ
  feature_name : Str
  x_location : ℚ
  y_location : ℚ
  z_location : ℚ
  qv : ℚ
deriving DecidableEq

/-- Model of polars' `col(_).str().starts_with(lit(pre))`. -/
def strStartsWith : Str → Str → Bool
  | _, [] => true
  | [], _ :: _ => false
  | c :: cs, p :: ps => decide (c = p) && strStartsWith cs ps

/-- Model of Rust's `str::ends_with`, used on the input filename. -/
def strEndsWith (s suffix : Str) : Bool :=
  strStartsWith s.reverse suffix.reverse

def negControlProbeStr : Str := "NegControlProbe_".data

def antisenseStr : Str := "antisense_".data

def negControlCodewordStr : Str := "NegControlCodeword_".data

def blankStr : Str := "BLANK_".data

/-- Whether a row's feature name starts with one of the four reserved
control prefixes removed by `filter_transcripts`. -/
def isControlRow (r : Row) : Bool :=
  strStartsWith r.feature_name negControlProbeStr ||
    strStartsWith r.feature_name antisenseStr ||
      strStartsWith r.feature_name negControlCodewordStr ||
        strStartsWith r.feature_name blankStr

/-- `filter_transcripts` from `src/lib.rs`: four chained `filter` calls,
each excluding rows whose feature name starts with one reserved control
name. -/
def filter_transcripts (t : List Row) : List Row :=
  ((((t.filter (fun r => !(strStartsWith r.feature_name negControlProbeStr))).filter
        (fun r => !(strStartsWith r.feature_name antisenseStr))).filter
      (fun r => !(strStartsWith r.feature_name negControlCodewordStr))).filter
    (fun r => !(strStartsWith r.feature_name blankStr)))

/-- Rebuild a row with the decoded `cell_id` value, leaving every other
column untouched (the `with_columns` call only maps the `cell_id`
column). -/
def decodeRowWith (r : Row) (n : ℕ) : DRow :=
  { transcript_id := r.transcript_id, cell_id := n,
    overlaps_nucleus := r.overlaps_nucleus, feature_name := r.feature_name,
    x_location := r.x_location, y_location := r.y_location,
    z_location := r.z_location, qv := r.qv }

/-- `decode_cells` from `src/lib.rs`: apply `decode_cell_id` to every
entry of the `cell_id` column.  In the model every entry is a string, so
the `AnyValue::Utf8` branch always applies; a panic inside the map (any
undecodable id) fails the whole collect, modelled by `none`. -/
def decode_cells : List Row → Option (List DRow)
  | [] => some []
  | r :: t =>
    match decode_cell_id r.cell_id, decode_cells t with
    | some n, some t' => some (decodeRowWith r n :: t')
    | _, _ => none

/-- Minimum of a (float) column: `none` on an empty frame, where the
source's `.min().unwrap()` panics. -/
def colMin : List ℚ → Option ℚ
  | [] => none
  | a :: t => some (t.foldl min a)

/-- Maximum of a (float) column: `none` on an empty frame. -/
def colMax : List ℚ → Option ℚ
  | [] => none
  | a :: t => some (t.foldl max a)

/-- `get_limits` from `src/lib.rs`: `(x_min.floor(), x_max.ceil(),
y_min.floor(), y_max.ceil())` over the coordinate columns. -/
def get_limits (df : List DRow) : Option (ℚ × ℚ × ℚ × ℚ) :=
  match colMin (df.map (fun r => r.x_location)),
      colMax (df.map (fun r => r.x_location)),
      colMin (df.map (fun r => r.y_location)),
      colMax (df.map (fun r => r.y_location)) with
  | some a, some b, some c, some d =>
    some ((⌊a⌋ : ℚ), (⌈b⌉ : ℚ), (⌊c⌋ : ℚ), (⌈d⌉ : ℚ))
  | _, _, _, _ => none

/-- The four chained rectangle filters of `write_tile`:
`x_location ≥ start_x`, `x_location ≤ end_x`, `y_location ≥ start_y`,
`y_location ≤ end_y`, applied in source order. -/
def tileFiltered (df : List DRow) (start_x end_x start_y end_y : ℚ) : List DRow :=
  ((((df.filter (fun r => decide (start_x ≤ r.x_location))).filter
        (fun r => decide (r.x_location ≤ end_x))).filter
      (fun r => decide (start_y ≤ r.y_location))).filter
    (fun r => decide (r.y_location ≤ end_y)))

/-- A materialized tile: the rectangle that names the output file,
paired with the rows written into it. -/
abbrev Tile := (ℚ × ℚ × ℚ × ℚ) × List DRow

/-- `write_tile` from `src/lib.rs`: filter the frame to the closed
rectangle; if fewer than `minimal_transcripts` rows remain, recurse with
the rectangle grown by `increment` on all four sides.  The final `ℕ`
argument is recursion fuel: `none` models the unbounded recursion that a
Rust run would not survive. -/
def write_tile (df : List DRow) :
    ℚ → ℚ → ℚ → ℚ → ℕ → ℚ → ℕ → Option Tile
  | _, _, _, _, _, _, 0 => none
  | start_x, end_x, start_y, end_y, minimal_transcripts, increment, fuel + 1 =>
    let filtered_df := tileFiltered df start_x end_x start_y end_y
    if filtered_df.length < minimal_transcripts then
      write_tile df (start_x - increment) (end_x + increment)
        (start_y - increment) (end_y + increment) minimal_transcripts increment fuel
    else
      some ((start_x, end_x, start_y, end_y), filtered_df)

/-- The cursor positions visited by one of the `while` loops of `run`:
starting at `x`, while the cursor is `≤ hi`, emit it and advance by
`step`.  The `ℕ` argument is fuel, standing for the absence of any bound
on the number of iterations in the source. -/
def positionsAux (hi step : ℚ) : ℚ → ℕ → List ℚ
  | _, 0 => []
  | x, fuel + 1 => if x ≤ hi then x :: positionsAux hi step (x + step) fuel else []

/-- The tile loop of `run`: for every `y` cursor position (outer loop,
stride `height - overlap`) and every `x` cursor position (inner loop,
stride `width - overlap`), call `write_tile` on the requested rectangle
`[x, x + width] × [y, y + height]`.  Each entry records the cursor
position and the tile produced there. -/
def tileLoop (df : List DRow) (width height overlap xmin xmax ymin ymax : ℚ)
    (minimal_transcripts : ℕ) (fy fx fw : ℕ) :
    List ((ℚ × ℚ) × Option Tile) :=
  (positionsAux ymax (height - overlap) ymin fy).flatMap (fun y =>
    (positionsAux xmax (width - overlap) xmin fx).map (fun x =>
      ((x, y), write_tile df x (x + width) y (y + height) minimal_transcripts overlap fw)))

/-- The command-line arguments of the tool (struct `Args` of
`src/lib.rs`). -/
structure Args where
  in_file : Str
  min_qv : ℚ
  width : ℚ
  height : ℚ
  overlap : ℚ
  minimal_transcripts : ℕ
  nucleus_only : Bool
  out_dir : Str
deriving DecidableEq

/-- The pipeline body of `run` from `src/lib.rs`, up to but excluding the
final `params.txt` dump; note that this part of the pipeline never reads
`min_qv`, exactly as in the source.  The input table is abstracted as the
list of rows the reader would produce.  Faithful quirks kept from the
source: the second dimension check tests `width` again (its error message
mentions the height, but `args.height` is never read there), and the
`usize → u32` conversion of `minimal_transcripts` errors at `2 ^ 32`. -/
def runCore (in_file : Str) (width height overlap : ℚ) (minimal_transcripts : ℕ)
    (nucleus_only : Bool) (input : List Row) (fy fx fw : ℕ) :
    Except Str (List ((ℚ × ℚ) × Option Tile)) :=
  if width ≤ overlap then
    .error "The width of a tile cannot be smaller than the overlap.".data
  else if width ≤ overlap then
    .error "The height of a tile cannot be smaller than the overlap.".data
  else if strEndsWith in_file ".parquet".data || strEndsWith in_file ".csv".data then
    let t1 := filter_transcripts input
    if 2 ^ 32 ≤ minimal_transcripts then .error "out of range integral type conversion".data
    else if t1.length < minimal_transcripts then
      .error "The number of transcripts is lower than the required minimal number per tile.".data
    else
      let t2 := t1.map (fun r =>
        if r.cell_id = "UNASSIGNED".data then { r with cell_id := ['0'] } else r)
      let t3 :=
        if nucleus_only then
          t2.map (fun r =>
            if r.overlaps_nucleus = 0 then { r with cell_id := ['0'] } else r)
        else t2
      match decode_cells t3 with
      | none => .error "could not decode a cell id".data
      | some df =>
        match get_limits df with
        | none => .error "min max on empty column".data
        | some (xmin, xmax, ymin, ymax) =>
          .ok (tileLoop df width height overlap xmin xmax ymin ymax
            minimal_transcripts fy fx fw)
  else .error "Input file should be either CSV or Parquet.".data

/-- `run` from `src/lib.rs`: the pipeline body followed by the
`params.txt` dump, which records the debug form of the full `Args` value
(the only place `min_qv` is ever used). -/
def runModel (args : Args) (input : List Row) (fy fx fw : ℕ) :
    Except Str ((List ((ℚ × ℚ) × Option Tile)) × Args) :=
  (runCore args.in_file args.width args.height args.overlap args.minimal_transcripts
      args.nucleus_only input fy fx fw).map (fun tiles => (tiles, args))

/-- Whether a run completed without aborting. -/
def runOk : Except Str ((List ((ℚ × ℚ) × Option Tile)) × Args) → Bool
  | .ok _ => true
  | .error _ => false

/-- Spec-side definition (refinement target for the cell-id claims): the
base-16 value of the hex string formed by mapping each character `c` to
the nibble `c - 'a'`, one digit per character, in original order. -/
def nibbleFold (p : Str) : ℕ :=
  p.foldl (fun acc c => acc * 16 + (c.toNat - 97)) 0

/-- The numeric value of the concatenated hex expansion that
`convert_hex_array_to_int` parses for the pre-dash part `p`. -/
def hexValueOf (p : Str) : ℕ :=
  hexFold (((shifted_hex_to_hex_array p).map hexDigitsOfInt).flatten)

/-- The four-row dataset of the `check_limits` unit test of the source:
`x_location = [1.0, 2.0, 3.0, 2.5]`, `y_location = [9.0, 8.7, 8.8, 8.9]`. -/
def limitsExampleRows : List DRow :=
  [{ transcript_id := 1, cell_id := 0, overlaps_nucleus := 1, feature_name := ['G'],
     x_location := 1, y_location := 9, z_location := 0, qv := 20 },
   { transcript_id := 2, cell_id := 0, overlaps_nucleus := 1, feature_name := ['G'],
     x_location := 2, y_location := 87 / 10, z_location := 0, qv := 20 },
   { transcript_id := 3, cell_id := 0, overlaps_nucleus := 1, feature_name := ['G'],
     x_location := 3, y_location := 88 / 10, z_location := 0, qv := 20 },
   { transcript_id := 4, cell_id := 0, overlaps_nucleus := 1, feature_name := ['G'],
     x_location := 5 / 2, y_location := 89 / 10, z_location := 0, qv := 20 }]

/-- A single concrete input row used by witnesses. -/
def rowExample : Row :=
  { transcript_id := 5, cell_id := "ffkpbaba-1".data, overlaps_nucleus := 1,
    feature_name := ['G'], x_location := 1, y_location := 2, z_location := 3, qv := 20 }

/-- `rowExample` with its cell id decoded. -/
def drowExample : DRow :=
  { transcript_id := 5, cell_id := 1437536272, overlaps_nucleus := 1,
    feature_name := ['G'], x_location := 1, y_location := 2, z_location := 3, qv := 20 }

/-- A decoded row with a small cell id, used by witnesses that evaluate
coordinate arithmetic. -/
def tileRowExample : DRow :=
  { transcript_id := 1, cell_id := 7, overlaps_nucleus := 1,
    feature_name := ['G'], x_location := 1, y_location := 2, z_location := 3, qv := 20 }

/-- Spec-side postcondition of the Bounds Calculator (claim C9): the
computed limits are the floor of the minimum x, the ceiling of the
maximum x, the floor of the minimum y, the ceiling of the maximum y, and
they envelop every record of the dataset. -/
def limitsSpec (df : List DRow) : Prop :=
  ∃ a b c d : ℚ, get_limits df = some (a, b, c, d) ∧
    (∀ r ∈ df, a ≤ r.x_location ∧ r.x_location ≤ b ∧ c ≤ r.y_location ∧ r.y_location ≤ d) ∧
    (∃ r ∈ df, a = (⌊r.x_location⌋ : ℚ) ∧ ∀ s ∈ df, r.x_location ≤ s.x_location) ∧
    (∃ r ∈ df, b = (⌈r.x_location⌉ : ℚ) ∧ ∀ s ∈ df, s.x_location ≤ r.x_location) ∧
    (∃ r ∈ df, c = (⌊r.y_location⌋ : ℚ) ∧ ∀ s ∈ df, r.y_location ≤ s.y_location) ∧
    (∃ r ∈ df, d = (⌈r.y_location⌉ : ℚ) ∧ ∀ s ∈ df, s.y_location ≤ r.y_location)

/-- Spec-side postcondition of `write_tile` (claim C2): the tile rows are
exactly the dataset rows inside the closed returned rectangle; the
returned rectangle is the requested one expanded outward by a whole
number of increments on all four sides; it contains the requested
rectangle; and the row count meets the threshold. -/
def writeTileSpec (df : List DRow) (start_x end_x start_y end_y : ℚ)
    (minimal_transcripts : ℕ) (increment : ℚ)
    (rect : ℚ × ℚ × ℚ × ℚ) (rows : List DRow) : Prop :=
  (∀ r : DRow, r ∈ rows ↔ r ∈ df ∧ rect.1 ≤ r.x_location ∧ r.x_location ≤ rect.2.1 ∧
      rect.2.2.1 ≤ r.y_location ∧ r.y_location ≤ rect.2.2.2) ∧
  (∃ k : ℕ, rect = (start_x - k * increment, end_x + k * increment,
      start_y - k * increment, end_y + k * increment)) ∧
  (rect.1 ≤ start_x ∧ end_x ≤ rect.2.1 ∧ rect.2.2.1 ≤ start_y ∧ end_y ≤ rect.2.2.2) ∧
  minimal_transcripts ≤ rows.length

/-- Arguments exercising the missing height validation (claim C1): the
height `1` does not exceed the overlap `2`, while the width `4` does. -/
def badHeightArgs : Args :=
  { in_file := "t.csv".data, min_qv := 20, width := 4, height := 1, overlap := 2,
    minimal_transcripts := 1, nucleus_only := false, out_dir := [] }

/-- Arguments whose width `1` does not exceed the overlap `2`: the width
validation does fire on these. -/
def badWidthArgs : Args :=
  { in_file := "t.csv".data, min_qv := 20, width := 1, height := 4, overlap := 2,
    minimal_transcripts := 1, nucleus_only := false, out_dir := [] }

/-- A well-formed configuration used by witnesses. -/
def argsExample : Args :=
  { in_file := "t.csv".data, min_qv := 20, width := 4, height := 4, overlap := 1,
    minimal_transcripts := 0, nucleus_only := false, out_dir := [] }

/-- `argsExample` with a different minimum Q-score threshold. -/
def argsExampleHighQv : Args :=
  { argsExample with min_qv := 30 }

/-- Spec-side postcondition of `decode_cells` (claim C10): row count and
row order are preserved and every column other than `cell_id` is
unchanged; `cell_id` carries the decoded value. -/
def decodeFrameSpec (rows : List Row) (drows : List DRow) : Prop :=
  drows.length = rows.length ∧
    List.Forall₂ (fun (r : Row) (d : DRow) =>
      d.transcript_id = r.transcript_id ∧ d.overlaps_nucleus = r.overlaps_nucleus ∧
        d.feature_name = r.feature_name ∧ d.x_location = r.x_location ∧
          d.y_location = r.y_location ∧ d.z_location = r.z_location ∧ d.qv = r.qv ∧
            decode_cell_id r.cell_id = some d.cell_id) rows drows

/-- The exact failure conditions of `decode_cell_id` on strings that do
not parse as `u32` (amended claim C5): no `'-'` at all; or the segment
between the first `'-'` and the next one (or the end of the string) does
not parse as a `usize`; or the part before the first `'-'` is empty; or
the value of its concatenated hex expansion does not fit in 32 bits. -/
def codeMalformed (cs : Str) : Prop :=
  ('-' ∉ cs) ∨
    (∃ p suffix rest, splitOnDash cs = p :: suffix :: rest ∧
      (parseUnsigned U64 suffix = none ∨ p = [] ∨ U32 ≤ hexValueOf p))

/-! ## Helper lemmas about the cell-id decoder -/

theorem splitOnDash_ne_nil (cs : Str) : splitOnDash cs ≠ [] := by
  induction cs with
  | nil => simp [splitOnDash]
  | cons c cs ih =>
    simp only [splitOnDash]
    split
    · simp
    · cases h : splitOnDash cs with
      | nil => simp
      | cons p ps => simp

theorem dash_mem_iff (cs : Str) : '-' ∈ cs ↔ 2 ≤ (splitOnDash cs).length := by
  induction cs with
  | nil => simp [splitOnDash]
  | cons c cs ih =>
    by_cases hc : c = '-'
    · subst hc
      have h1 : 0 < (splitOnDash cs).length :=
        List.length_pos.mpr (splitOnDash_ne_nil cs)
      have hsplit : splitOnDash ('-' :: cs) = [] :: splitOnDash cs := by
        simp [splitOnDash]
      rw [hsplit, List.mem_cons]
      simp only [List.length_cons]
      constructor
      · intro _
        omega
      · intro _
        simp
    · cases h : splitOnDash cs with
      | nil => exact absurd h (splitOnDash_ne_nil cs)
      | cons p ps =>
        have hsplit : splitOnDash (c :: cs) = (c :: p) :: ps := by
          simp [splitOnDash, hc, h]
        rw [hsplit, List.mem_cons]
        rw [h] at ih
        simp only [List.length_cons] at ih ⊢
        constructor
        · intro hmem
          rcases hmem with h1 | h2
          · exact absurd h1.symm hc
          · exact ih.mp h2
        · intro hlen
          exact Or.inr (ih.mpr hlen)

theorem hexDigitsAux_zero (fuel : ℕ) : hexDigitsAux fuel 0 = [] := by
  cases fuel <;> simp [hexDigitsAux]

theorem hexDigitsOfNat_ne_nil (n : ℕ) : hexDigitsOfNat n ≠ [] := by
  unfold hexDigitsOfNat
  split
  · simp
  · rename_i hn
    cases n with
    | zero => exact absurd rfl hn
    | succ m =>
      simp only [hexDigitsAux, Nat.succ_ne_zero, if_neg]
      simp

theorem hexDigitsOfNat_lt16 (n : ℕ) (h : n < 16) : hexDigitsOfNat n = [n] := by
  unfold hexDigitsOfNat
  split
  · rename_i hz; subst hz; rfl
  · rename_i hn
    cases n with
    | zero => exact absurd rfl hn
    | succ m =>
      have hdiv : (m + 1) / 16 = 0 := Nat.div_eq_of_lt h
      have hmod : (m + 1) % 16 = m + 1 := Nat.mod_eq_of_lt h
      simp only [hexDigitsAux, Nat.succ_ne_zero, if_neg, hdiv, hmod, hexDigitsAux_zero]
      simp

theorem hexDigitsOfInt_nibble (c : Char) (h1 : 97 ≤ c.toNat) (h2 : c.toNat ≤ 112) :
    hexDigitsOfInt ((c.toNat : ℤ) - 97) = [c.toNat - 97] := by
  have hcast : (c.toNat : ℤ) - 97 = ((c.toNat - 97 : ℕ) : ℤ) := by
    push_cast [h1]
    ring
  have hlt : ((c.toNat - 97 : ℕ) : ℤ) < (2 : ℤ) ^ 32 := by
    have : c.toNat - 97 ≤ 15 := by omega
    omega
  have hmod : ((c.toNat - 97 : ℕ) : ℤ) % (2 : ℤ) ^ 32 = ((c.toNat - 97 : ℕ) : ℤ) :=
    Int.emod_eq_of_lt (by positivity) hlt
  unfold hexDigitsOfInt u32bits
  rw [hcast, hmod, Int.toNat_natCast]
  exact hexDigitsOfNat_lt16 _ (by omega)

theorem flatten_map_singleton {α β : Type} (g : α → β) (l : List α) :
    (l.map (fun a => [g a])).flatten = l.map g := by
  induction l with
  | nil => rfl
  | cons a t ih => simp [ih]

theorem hexValueOf_nibbles (p : Str) (h : ∀ c ∈ p, 97 ≤ c.toNat ∧ c.toNat ≤ 112) :
    hexValueOf p = nibbleFold p := by
  unfold hexValueOf shifted_hex_to_hex_array
  rw [List.map_map]
  have hmap : p.map (hexDigitsOfInt ∘ fun c => (c.toNat : ℤ) - 97)
      = p.map (fun c => [c.toNat - 97]) := by
    apply List.map_congr_left
    intro c hc
    exact hexDigitsOfInt_nibble c (h c hc).1 (h c hc).2
  rw [hmap, flatten_map_singleton]
  unfold hexFold nibbleFold
  rw [List.foldl_map]

theorem hexExpansion_ne_nil (p : Str) (hp : p ≠ []) :
    ((shifted_hex_to_hex_array p).map hexDigitsOfInt).flatten ≠ [] := by
  cases p with
  | nil => exact absurd rfl hp
  | cons c t =>
    simp only [shifted_hex_to_hex_array, List.map_cons, List.map_map, List.flatten_cons]
    intro hcontra
    rcases List.append_eq_nil.mp hcontra with ⟨h1, _⟩
    exact hexDigitsOfNat_ne_nil _ h1

theorem convert_eq (xs : List ℤ) (hne : (xs.map hexDigitsOfInt).flatten ≠ []) :
    convert_hex_array_to_int xs =
      if hexFold ((xs.map hexDigitsOfInt).flatten) < U32
      then some (hexFold ((xs.map hexDigitsOfInt).flatten)) else none := by
  unfold convert_hex_array_to_int
  cases h : (xs.map hexDigitsOfInt).flatten with
  | nil => exact absurd h hne
  | cons d t => rfl

theorem decode_cell_id_split (cs p suffix : Str) (rest : List Str)
    (hparse : parseUnsigned U32 cs = none)
    (hsplit : splitOnDash cs = p :: suffix :: rest) :
    decode_cell_id cs =
      match parseUnsigned U64 suffix with
      | some _ => convert_hex_array_to_int (shifted_hex_to_hex_array p)
      | none => none := by
  unfold decode_cell_id
  rw [hparse, hsplit]

theorem decode_composite (cs p suffix : Str) (rest : List Str)
    (hparse : parseUnsigned U32 cs = none)
    (hsplit : splitOnDash cs = p :: suffix :: rest)
    (hsuf : (parseUnsigned U64 suffix).isSome = true)
    (hp : p ≠ [])
    (hfit : hexValueOf p < U32) :
    decode_cell_id cs = some (hexValueOf p) := by
  obtain ⟨v, hv⟩ := Option.isSome_iff_exists.mp hsuf
  have hdec : decode_cell_id cs = convert_hex_array_to_int (shifted_hex_to_hex_array p) := by
    rw [decode_cell_id_split cs p suffix rest hparse hsplit, hv]
  rw [hdec, convert_eq _ (hexExpansion_ne_nil p hp)]
  unfold hexValueOf at hfit
  rw [if_pos hfit]
  rfl

/-- Claim C4 counterexample: `"bbbbbbbbb-1"` is a composite string whose
part before the first `'-'` consists solely of characters in `'a'`–`'p'`
and whose suffix is numeric, so by the claim `decode_cell_id` should
return the base-16 value `4581298449` of its hex string `"111111111"`;
instead the value overflows 32 bits and the decoder fails (the original
panics in `u32::from_str_radix(..).unwrap()`). -/
theorem c4_overflow_counterexample :
    parseUnsigned U32 "bbbbbbbbb-1".data = none ∧
    splitOnDash "bbbbbbbbb-1".data = ["bbbbbbbbb".data, "1".data] ∧
    (∀ c ∈ "bbbbbbbbb".data, 97 ≤ c.toNat ∧ c.toNat ≤ 112) ∧
    parseUnsigned U64 "1".data = some 1 ∧
    nibbleFold "bbbbbbbbb".data = 4581298449 ∧
    decode_cell_id "bbbbbbbbb-1".data = none := by decide

/-- Claim C4 (amended): every string that parses as a `u32` decodes to
itself; and every composite string with a nonempty pre-dash part made of
characters `'a'`–`'p'` (code points 97–112), a parseable dataset suffix,
and a mapped hex value that fits in 32 bits, decodes to the base-16 value
of its one-digit-per-character hex string; in particular `"42"` decodes
to `42` and `"ffkpbaba-1"` decodes to `1437536272`. -/
theorem c4_decode_cell_id :
    (∀ (cs : Str) (n : ℕ), parseUnsigned U32 cs = some n → decode_cell_id cs = some n) ∧
    (∀ (cs p suffix : Str) (rest : List Str),
      parseUnsigned U32 cs = none →
      splitOnDash cs = p :: suffix :: rest →
      p ≠ [] →
      (∀ c ∈ p, 97 ≤ c.toNat ∧ c.toNat ≤ 112) →
      (parseUnsigned U64 suffix).isSome = true →
      nibbleFold p < U32 →
      decode_cell_id cs = some (nibbleFold p)) ∧
    decode_cell_id "42".data = some 42 ∧
    decode_cell_id "ffkpbaba-1".data = some 1437536272 := by
  refine ⟨?_, ?_, by decide, by decide⟩
  · intro cs n h
    unfold decode_cell_id
    rw [h]
  · intro cs p suffix rest hparse hsplit hp hchars hsuf hfit
    rw [← hexValueOf_nibbles p hchars] at hfit ⊢
    exact decode_composite cs p suffix rest hparse hsplit hsuf hp hfit

/-- Witness for `c4_decode_cell_id`: its composite branch applied to the
concrete input `"ab-7"`. -/
theorem c4_decode_cell_id_witness : decode_cell_id "ab-7".data = some 1 :=
  c4_decode_cell_id.2.1 "ab-7".data ['a', 'b'] ['7'] [] (by decide) (by decide)
    (by decide) (by decide) (by decide) (by decide)

/-- Claim C5 counterexample: `"q-1"` does not parse as an unsigned
integer and its part before the first `'-'` contains the character `'q'`,
which lies outside `'a'`–`'p'`, so by the claim decoding should fail;
instead `decode_cell_id` returns the value `16`. -/
theorem c5_out_of_range_counterexample :
    parseUnsigned U32 "q-1".data = none ∧
    splitOnDash "q-1".data = [['q'], ['1']] ∧
    112 < Char.toNat 'q' ∧
    decode_cell_id "q-1".data = some 16 := by decide

/-- Claim C5 (amended): on every string that does not parse as a `u32`,
`decode_cell_id` fails exactly when the string has no `'-'`, or the
segment between the first `'-'` and the next one (or the end) does not
parse as a `usize`, or the part before the first `'-'` is empty, or the
value of its concatenated hex expansion does not fit in 32 bits. -/
theorem c5_decode_failure_conditions (cs : Str)
    (hparse : parseUnsigned U32 cs = none) :
    decode_cell_id cs = none ↔ codeMalformed cs := by
  rcases e : splitOnDash cs with _ | ⟨p, tl⟩
  · exact absurd e (splitOnDash_ne_nil cs)
  rcases tl with _ | ⟨suffix, rest⟩
  · have hdec : decode_cell_id cs = none := by
      unfold decode_cell_id
      rw [hparse, e]
    have hnd : '-' ∉ cs := by
      rw [dash_mem_iff cs, e]
      simp
    rw [hdec]
    exact iff_of_true rfl (Or.inl hnd)
  have hdash : '-' ∈ cs := by
    rw [dash_mem_iff cs, e]
    simp
  cases hsuf : parseUnsigned U64 suffix with
  | none =>
    have hdec : decode_cell_id cs = none := by
      rw [decode_cell_id_split cs p suffix rest hparse e, hsuf]
    rw [hdec]
    exact iff_of_true rfl (Or.inr ⟨p, suffix, rest, e, Or.inl hsuf⟩)
  | some v =>
    have hdec : decode_cell_id cs = convert_hex_array_to_int (shifted_hex_to_hex_array p) := by
      rw [decode_cell_id_split cs p suffix rest hparse e, hsuf]
    by_cases hp : p = []
    · subst hp
      rw [hdec]
      have hconv : convert_hex_array_to_int (shifted_hex_to_hex_array []) = none := rfl
      rw [hconv]
      exact iff_of_true rfl (Or.inr ⟨[], suffix, rest, e, Or.inr (Or.inl rfl)⟩)
    · have hne := hexExpansion_ne_nil p hp
      rw [hdec, convert_eq _ hne]
      by_cases hfit : hexFold (((shifted_hex_to_hex_array p).map hexDigitsOfInt).flatten) < U32
      · rw [if_pos hfit]
        constructor
        · intro hc
          exact absurd hc (by simp)
        · intro hmal
          exfalso
          rcases hmal with hnd | ⟨p', s', r', hsp, hdisj⟩
          · exact hnd hdash
          · rw [e] at hsp
            injection hsp with h1 h2
            injection h2 with h2 h3
            subst h1
            subst h2
            rcases hdisj with h | h | h
            · rw [hsuf] at h
              exact Option.noConfusion h
            · exact hp h
            · unfold hexValueOf at h
              omega
      · rw [if_neg hfit]
        refine iff_of_true rfl (Or.inr ⟨p, suffix, rest, e, Or.inr (Or.inr ?_)⟩)
        unfold hexValueOf
        omega

/-- Witness for `c5_decode_failure_conditions` at the concrete input
`"ab"` (no dash). -/
theorem c5_decode_failure_conditions_witness :
    decode_cell_id "ab".data = none ↔ codeMalformed "ab".data :=
  c5_decode_failure_conditions "ab".data (by decide)

/-! ## The control-probe filter -/

theorem strStartsWith_iff (pre : Str) :
    ∀ s : Str, strStartsWith s pre = true ↔ ∃ t, s = pre ++ t := by
  induction pre with
  | nil =>
    intro s
    simp only [List.nil_append]
    constructor
    · intro _
      exact ⟨s, rfl⟩
    · intro _
      cases s <;> rfl
  | cons p ps ih =>
    intro s
    cases s with
    | nil =>
      constructor
      · intro h
        exact Bool.noConfusion h
      · rintro ⟨t, ht⟩
        exact List.noConfusion ht
    | cons c cs =>
      simp only [strStartsWith, Bool.and_eq_true, decide_eq_true_eq, ih cs,
        List.cons_append]
      constructor
      · rintro ⟨rfl, t, rfl⟩
        exact ⟨t, rfl⟩
      · rintro ⟨t, h⟩
        injection h with h1 h2
        exact ⟨h1, t, h2⟩

theorem filter_transcripts_eq (rows : List Row) :
    filter_transcripts rows = rows.filter (fun r => !(isControlRow r)) := by
  unfold filter_transcripts
  rw [List.filter_filter, List.filter_filter, List.filter_filter]
  apply List.filter_congr
  intro r _
  unfold isControlRow
  cases h1 : strStartsWith r.feature_name negControlProbeStr <;>
    cases h2 : strStartsWith r.feature_name antisenseStr <;>
      cases h3 : strStartsWith r.feature_name negControlCodewordStr <;>
        cases h4 : strStartsWith r.feature_name blankStr <;> simp [h1, h2, h3, h4]

/-- Claim C6: the control-probe filter removes exactly the rows whose
feature name starts with one of the four reserved prefixes, retains all
others, preserves the relative order of the retained rows (it yields a
sublist of the input, so each retained row is the unmodified record, all
columns intact), and membership is characterized by the four
starts-with conditions. -/
theorem c6_filter_transcripts (rows : List Row) :
    filter_transcripts rows = rows.filter (fun r => !(isControlRow r)) ∧
    (filter_transcripts rows).Sublist rows ∧
    (∀ r : Row, r ∈ filter_transcripts rows ↔ r ∈ rows ∧
      ¬((∃ t, r.feature_name = negControlProbeStr ++ t) ∨
        (∃ t, r.feature_name = antisenseStr ++ t) ∨
        (∃ t, r.feature_name = negControlCodewordStr ++ t) ∨
        (∃ t, r.feature_name = blankStr ++ t))) := by
  have hcontrol : ∀ r : Row, isControlRow r = true ↔
      ((∃ t, r.feature_name = negControlProbeStr ++ t) ∨
        (∃ t, r.feature_name = antisenseStr ++ t) ∨
        (∃ t, r.feature_name = negControlCodewordStr ++ t) ∨
        (∃ t, r.feature_name = blankStr ++ t)) := by
    intro r
    unfold isControlRow
    simp only [Bool.or_eq_true, strStartsWith_iff]
    tauto
  refine ⟨filter_transcripts_eq rows, ?_, ?_⟩
  · rw [filter_transcripts_eq rows]
    exact List.filter_sublist rows
  · intro r
    rw [filter_transcripts_eq rows, List.mem_filter]
    constructor
    · rintro ⟨hmem, hf⟩
      refine ⟨hmem, fun hcontra => ?_⟩
      rw [← hcontrol r] at hcontra
      rw [hcontra] at hf
      exact Bool.noConfusion hf
    · rintro ⟨hmem, hn⟩
      refine ⟨hmem, ?_⟩
      cases hic : isControlRow r
      · rfl
      · exact absurd ((hcontrol r).mp hic) hn

/-! ## The cell-id decoding transform -/

/-- Claim C10: `decode_cells` changes only the `cell_id` column — the
number of rows, their order, and the values of every other column are
unchanged, and each new `cell_id` is the decoded value of the old one. -/
theorem c10_decode_cells_frame (rows : List Row) (drows : List DRow)
    (h : decode_cells rows = some drows) :
    decodeFrameSpec rows drows := by
  induction rows generalizing drows with
  | nil =>
    unfold decode_cells at h
    injection h with h1
    subst h1
    exact ⟨rfl, List.Forall₂.nil⟩
  | cons r t ih =>
    unfold decode_cells at h
    cases hd : decode_cell_id r.cell_id with
    | none =>
      rw [hd] at h
      exact Option.noConfusion h
    | some n =>
      rw [hd] at h
      cases ht : decode_cells t with
      | none =>
        rw [ht] at h
        exact Option.noConfusion h
      | some t' =>
        rw [ht] at h
        injection h with h1
        subst h1
        obtain ⟨hlen, hforall⟩ := ih t' ht
        constructor
        · simp [hlen]
        · refine List.Forall₂.cons ?_ hforall
          refine ⟨rfl, rfl, rfl, rfl, rfl, rfl, rfl, ?_⟩
          rw [hd]
          rfl

/-- Witness for `c10_decode_cells_frame` on a one-row dataset whose cell
id is the composite `"ffkpbaba-1"`. -/
theorem c10_decode_cells_frame_witness : decodeFrameSpec [rowExample] [drowExample] :=
  c10_decode_cells_frame [rowExample] [drowExample] (by decide)

/-! ## The bounds calculator -/

theorem foldl_min_le (l : List ℚ) :
    ∀ a : ℚ, l.foldl min a ≤ a ∧ ∀ x ∈ l, l.foldl min a ≤ x := by
  induction l with
  | nil =>
    intro a
    exact ⟨le_refl a, by simp⟩
  | cons b t ih =>
    intro a
    simp only [List.foldl_cons]
    obtain ⟨h1, h2⟩ := ih (min a b)
    refine ⟨le_trans h1 (min_le_left a b), ?_⟩
    intro x hx
    rcases List.mem_cons.mp hx with rfl | hx'
    · exact le_trans h1 (min_le_right a x)
    · exact h2 x hx'

theorem foldl_min_mem (l : List ℚ) :
    ∀ a : ℚ, l.foldl min a = a ∨ l.foldl min a ∈ l := by
  induction l with
  | nil =>
    intro a
    exact Or.inl rfl
  | cons b t ih =>
    intro a
    simp only [List.foldl_cons]
    rcases ih (min a b) with h | h
    · rcases min_choice a b with hm | hm
      · exact Or.inl (h.trans hm)
      · exact Or.inr (List.mem_cons.mpr (Or.inl (h.trans hm)))
    · exact Or.inr (List.mem_cons.mpr (Or.inr h))

theorem foldl_max_ge (l : List ℚ) :
    ∀ a : ℚ, a ≤ l.foldl max a ∧ ∀ x ∈ l, x ≤ l.foldl max a := by
  induction l with
  | nil =>
    intro a
    exact ⟨le_refl a, by simp⟩
  | cons b t ih =>
    intro a
    simp only [List.foldl_cons]
    obtain ⟨h1, h2⟩ := ih (max a b)
    refine ⟨le_trans (le_max_left a b) h1, ?_⟩
    intro x hx
    rcases List.mem_cons.mp hx with rfl | hx'
    · exact le_trans (le_max_right a x) h1
    · exact h2 x hx'

theorem foldl_max_mem (l : List ℚ) :
    ∀ a : ℚ, l.foldl max a = a ∨ l.foldl max a ∈ l := by
  induction l with
  | nil =>
    intro a
    exact Or.inl rfl
  | cons b t ih =>
    intro a
    simp only [List.foldl_cons]
    rcases ih (max a b) with h | h
    · rcases max_choice a b with hm | hm
      · exact Or.inl (h.trans hm)
      · exact Or.inr (List.mem_cons.mpr (Or.inl (h.trans hm)))
    · exact Or.inr (List.mem_cons.mpr (Or.inr h))

/-- Claim C9: on every non-empty dataset `get_limits` returns the floor
of the minimum `x_location`, the ceiling of the maximum `x_location`,
the floor of the minimum `y_location` and the ceiling of the maximum
`y_location`; every record lies inside the returned envelope; and on the
dataset `x = [1.0, 2.0, 3.0, 2.5]`, `y = [9.0, 8.7, 8.8, 8.9]` the
result is `(1.0, 3.0, 8.0, 9.0)`. -/
theorem c9_get_limits :
    (∀ df : List DRow, df ≠ [] → limitsSpec df) ∧
    get_limits limitsExampleRows = some (1, 3, 8, 9) := by
  constructor
  · intro df hne
    cases df with
    | nil => exact absurd rfl hne
    | cons r0 t =>
      obtain ⟨hxminle, hxminall⟩ := foldl_min_le (t.map fun r => r.x_location) r0.x_location
      obtain ⟨hxmaxge, hxmaxall⟩ := foldl_max_ge (t.map fun r => r.x_location) r0.x_location
      obtain ⟨hyminle, hyminall⟩ := foldl_min_le (t.map fun r => r.y_location) r0.y_location
      obtain ⟨hymaxge, hymaxall⟩ := foldl_max_ge (t.map fun r => r.y_location) r0.y_location
      have hxmin : ∀ s ∈ r0 :: t,
          (t.map fun r => r.x_location).foldl min r0.x_location ≤ s.x_location := by
        intro s hs
        rcases List.mem_cons.mp hs with rfl | hs'
        · exact hxminle
        · exact hxminall _ (List.mem_map_of_mem _ hs')
      have hxmax : ∀ s ∈ r0 :: t,
          s.x_location ≤ (t.map fun r => r.x_location).foldl max r0.x_location := by
        intro s hs
        rcases List.mem_cons.mp hs with rfl | hs'
        · exact hxmaxge
        · exact hxmaxall _ (List.mem_map_of_mem _ hs')
      have hymin : ∀ s ∈ r0 :: t,
          (t.map fun r => r.y_location).foldl min r0.y_location ≤ s.y_location := by
        intro s hs
        rcases List.mem_cons.mp hs with rfl | hs'
        · exact hyminle
        · exact hyminall _ (List.mem_map_of_mem _ hs')
      have hymax : ∀ s ∈ r0 :: t,
          s.y_location ≤ (t.map fun r => r.y_location).foldl max r0.y_location := by
        intro s hs
        rcases List.mem_cons.mp hs with rfl | hs'
        · exact hymaxge
        · exact hymaxall _ (List.mem_map_of_mem _ hs')
      refine ⟨_, _, _, _, rfl, ?_, ?_, ?_, ?_, ?_⟩
      · intro r hr
        exact ⟨le_trans (Int.floor_le _) (hxmin r hr),
          le_trans (hxmax r hr) (Int.le_ceil _),
          le_trans (Int.floor_le _) (hymin r hr),
          le_trans (hymax r hr) (Int.le_ceil _)⟩
      · rcases foldl_min_mem (t.map fun r => r.x_location) r0.x_location with h | h
        · refine ⟨r0, List.mem_cons_self r0 t, by rw [h], ?_⟩
          intro s hs
          rw [← h]
          exact hxmin s hs
        · obtain ⟨r, hrt, hrx⟩ := List.mem_map.mp h
          refine ⟨r, List.mem_cons_of_mem _ hrt, by rw [hrx], ?_⟩
          intro s hs
          rw [hrx]
          exact hxmin s hs
      · rcases foldl_max_mem (t.map fun r => r.x_location) r0.x_location with h | h
        · refine ⟨r0, List.mem_cons_self r0 t, by rw [h], ?_⟩
          intro s hs
          rw [← h]
          exact hxmax s hs
        · obtain ⟨r, hrt, hrx⟩ := List.mem_map.mp h
          refine ⟨r, List.mem_cons_of_mem _ hrt, by rw [hrx], ?_⟩
          intro s hs
          rw [hrx]
          exact hxmax s hs
      · rcases foldl_min_mem (t.map fun r => r.y_location) r0.y_location with h | h
        · refine ⟨r0, List.mem_cons_self r0 t, by rw [h], ?_⟩
          intro s hs
          rw [← h]
          exact hymin s hs
        · obtain ⟨r, hrt, hrx⟩ := List.mem_map.mp h
          refine ⟨r, List.mem_cons_of_mem _ hrt, by rw [hrx], ?_⟩
          intro s hs
          rw [hrx]
          exact hymin s hs
      · rcases foldl_max_mem (t.map fun r => r.y_location) r0.y_location with h | h
        · refine ⟨r0, List.mem_cons_self r0 t, by rw [h], ?_⟩
          intro s hs
          rw [← h]
          exact hymax s hs
        · obtain ⟨r, hrt, hrx⟩ := List.mem_map.mp h
          refine ⟨r, List.mem_cons_of_mem _ hrt, by rw [hrx], ?_⟩
          intro s hs
          rw [hrx]
          exact hymax s hs
  · with_unfolding_all decide

/-- Witness for `c9_get_limits` on a one-row dataset. -/
theorem c9_get_limits_witness : limitsSpec [drowExample] :=
  c9_get_limits.1 [drowExample] (by decide)

/-! ## The tile writer -/

theorem tileFiltered_eq (df : List DRow) (sx ex sy ey : ℚ) :
    tileFiltered df sx ex sy ey =
      df.filter (fun r => decide (sx ≤ r.x_location ∧ r.x_location ≤ ex ∧
        sy ≤ r.y_location ∧ r.y_location ≤ ey)) := by
  unfold tileFiltered
  rw [List.filter_filter, List.filter_filter, List.filter_filter]
  apply List.filter_congr
  intro r _
  by_cases h1 : sx ≤ r.x_location <;>
    by_cases h2 : r.x_location ≤ ex <;>
      by_cases h3 : sy ≤ r.y_location <;>
        by_cases h4 : r.y_location ≤ ey <;>
          simp [h1, h2, h3, h4]

theorem mem_tileFiltered {df : List DRow} {sx ex sy ey : ℚ} {r : DRow} :
    r ∈ tileFiltered df sx ex sy ey ↔
      r ∈ df ∧ sx ≤ r.x_location ∧ r.x_location ≤ ex ∧
        sy ≤ r.y_location ∧ r.y_location ≤ ey := by
  rw [tileFiltered_eq, List.mem_filter, decide_eq_true_eq]

theorem tileFiltered_mono_length {df : List DRow} {sx ex sy ey sx' ex' sy' ey' : ℚ}
    (h1 : sx' ≤ sx) (h2 : ex ≤ ex') (h3 : sy' ≤ sy) (h4 : ey ≤ ey') :
    (tileFiltered df sx ex sy ey).length ≤ (tileFiltered df sx' ex' sy' ey').length := by
  rw [tileFiltered_eq, tileFiltered_eq]
  apply List.Sublist.length_le
  apply List.monotone_filter_right
  intro r hr
  rw [decide_eq_true_eq] at hr
  simp only [decide_eq_true_eq]
  obtain ⟨a, b, c, d⟩ := hr
  exact ⟨le_trans h1 a, le_trans b h2, le_trans h3 c, le_trans d h4⟩

/-- Structure of every successful `write_tile` result: the returned
rectangle is the requested one expanded by `k` increments on all four
sides for some `k`; the returned rows are the rectangle filter of the
frame; the row count meets the threshold; and every earlier expansion
step was below the threshold. -/
theorem write_tile_some (df : List DRow) :
    ∀ (fuel : ℕ) (sx ex sy ey : ℚ) (minT : ℕ) (inc : ℚ)
      (rect : ℚ × ℚ × ℚ × ℚ) (rows : List DRow),
      write_tile df sx ex sy ey minT inc fuel = some (rect, rows) →
      ∃ k : ℕ,
        rect = (sx - k * inc, ex + k * inc, sy - k * inc, ey + k * inc) ∧
        rows = tileFiltered df (sx - k * inc) (ex + k * inc) (sy - k * inc) (ey + k * inc) ∧
        minT ≤ rows.length ∧
        ∀ j : ℕ, j < k →
          (tileFiltered df (sx - j * inc) (ex + j * inc)
            (sy - j * inc) (ey + j * inc)).length < minT := by
  intro fuel
  induction fuel with
  | zero =>
    intro sx ex sy ey minT inc rect rows h
    exact Option.noConfusion h
  | succ fuel ih =>
    intro sx ex sy ey minT inc rect rows h
    simp only [write_tile] at h
    by_cases hc : (tileFiltered df sx ex sy ey).length < minT
    · rw [if_pos hc] at h
      obtain ⟨k, hrect, hrows, hlen, hsteps⟩ := ih _ _ _ _ _ _ _ _ h
      have es : ∀ z : ℚ, (z - inc) - (k : ℚ) * inc = z - ((k + 1 : ℕ) : ℚ) * inc := by
        intro z
        push_cast
        ring
      have ea : ∀ z : ℚ, (z + inc) + (k : ℚ) * inc = z + ((k + 1 : ℕ) : ℚ) * inc := by
        intro z
        push_cast
        ring
      refine ⟨k + 1, ?_, ?_, hlen, ?_⟩
      · rw [hrect, es sx, ea ex, es sy, ea ey]
      · rw [hrows, es sx, ea ex, es sy, ea ey]
      · intro j hj
        cases j with
        | zero =>
          simpa using hc
        | succ j' =>
          have hj' : j' < k := by omega
          have hstep := hsteps j' hj'
          have es' : ∀ z : ℚ, (z - inc) - (j' : ℚ) * inc = z - ((j' + 1 : ℕ) : ℚ) * inc := by
            intro z
            push_cast
            ring
          have ea' : ∀ z : ℚ, (z + inc) + (j' : ℚ) * inc = z + ((j' + 1 : ℕ) : ℚ) * inc := by
            intro z
            push_cast
            ring
          rw [es' sx, ea' ex, es' sy, ea' ey] at hstep
          exact hstep
    · rw [if_neg hc] at h
      injection h with h1
      injection h1 with hr hw
      have e0s : ∀ z : ℚ, z - ((0 : ℕ) : ℚ) * inc = z := by
        intro z
        push_cast
        ring
      have e0a : ∀ z : ℚ, z + ((0 : ℕ) : ℚ) * inc = z := by
        intro z
        push_cast
        ring
      refine ⟨0, ?_, ?_, ?_, ?_⟩
      · rw [← hr, e0s sx, e0a ex, e0s sy, e0a ey]
      · rw [← hw, e0s sx, e0a ex, e0s sy, e0a ey]
      · rw [← hw]
        exact le_of_not_lt hc
      · intro j hj
        omega

/-- Claim C2: every tile materialized by `write_tile` contains exactly
the dataset rows lying in the returned closed rectangle, inclusive on
all four bounds; the returned rectangle is the requested one expanded
outward by zero or more whole multiples of the increment; it is a
superset of the requested rectangle; and its row count meets the
minimum-transcript threshold. -/
theorem c2_write_tile (df : List DRow) (sx ex sy ey : ℚ) (minT : ℕ) (inc : ℚ)
    (fuel : ℕ) (rect : ℚ × ℚ × ℚ × ℚ) (rows : List DRow)
    (h : write_tile df sx ex sy ey minT inc fuel = some (rect, rows)) :
    writeTileSpec df sx ex sy ey minT inc rect rows := by
  obtain ⟨k, hrect, hrows, hlen, hsteps⟩ :=
    write_tile_some df fuel sx ex sy ey minT inc rect rows h
  subst hrect
  subst hrows
  have hknonneg : (0 : ℚ) ≤ (k : ℚ) * inc := by
    cases k with
    | zero => simp
    | succ k' =>
      have hinc : 0 < inc := by
        by_contra hni
        push_neg at hni
        have h0 := hsteps 0 (Nat.succ_pos k')
        simp only [Nat.cast_zero, zero_mul, sub_zero, add_zero] at h0
        have hK : ((k' + 1 : ℕ) : ℚ) * inc ≤ 0 :=
          mul_nonpos_of_nonneg_of_nonpos (by positivity) hni
        have hmono :
            (tileFiltered df (sx - ((k' + 1 : ℕ) : ℚ) * inc) (ex + ((k' + 1 : ℕ) : ℚ) * inc)
              (sy - ((k' + 1 : ℕ) : ℚ) * inc) (ey + ((k' + 1 : ℕ) : ℚ) * inc)).length ≤
            (tileFiltered df sx ex sy ey).length :=
          tileFiltered_mono_length (by linarith) (by linarith) (by linarith) (by linarith)
        omega
      positivity
  refine ⟨?_, ⟨k, rfl⟩, ?_, hlen⟩
  · intro r
    exact mem_tileFiltered
  · refine ⟨?_, ?_, ?_, ?_⟩
    · show sx - (k : ℚ) * inc ≤ sx
      linarith
    · show ex ≤ ex + (k : ℚ) * inc
      linarith
    · show sy - (k : ℚ) * inc ≤ sy
      linarith
    · show ey ≤ ey + (k : ℚ) * inc
      linarith

/-- Witness for `c2_write_tile`: a one-row dataset whose point lies
outside the requested rectangle, so the tile is accepted only after one
expansion by the increment `10`. -/
theorem c2_write_tile_witness :
    writeTileSpec [tileRowExample] 2 3 3 4 1 10 (-8, 13, -7, 14) [tileRowExample] :=
  c2_write_tile [tileRowExample] 2 3 3 4 1 10 2 (-8, 13, -7, 14) [tileRowExample]
    (by with_unfolding_all decide)

/-- Every coordinate projection of a finite dataset is bounded above. -/
theorem exists_upper_bound (f : DRow → ℚ) (df : List DRow) :
    ∃ K : ℚ, ∀ r ∈ df, f r ≤ K := by
  induction df with
  | nil => exact ⟨0, by simp⟩
  | cons r t ih =>
    obtain ⟨K, hK⟩ := ih
    refine ⟨max (f r) K, ?_⟩
    intro s hs
    rcases List.mem_cons.mp hs with rfl | hs'
    · exact le_max_left _ _
    · exact le_trans (hK s hs') (le_max_right _ _)

/-- If some expansion step already meets the threshold, `write_tile`
returns a tile when given fuel for that many steps. -/
theorem write_tile_reaches (df : List DRow) (minT : ℕ) (inc : ℚ) :
    ∀ (k : ℕ) (sx ex sy ey : ℚ),
      minT ≤ (tileFiltered df (sx - k * inc) (ex + k * inc)
        (sy - k * inc) (ey + k * inc)).length →
      ∃ res : Tile, write_tile df sx ex sy ey minT inc (k + 1) = some res := by
  intro k
  induction k with
  | zero =>
    intro sx ex sy ey hcount
    simp only [Nat.cast_zero, zero_mul, sub_zero, add_zero] at hcount
    simp only [write_tile]
    rw [if_neg (by omega)]
    exact ⟨_, rfl⟩
  | succ k' ih =>
    intro sx ex sy ey hcount
    simp only [write_tile]
    by_cases hc : (tileFiltered df sx ex sy ey).length < minT
    · rw [if_pos hc]
      apply ih (sx - inc) (ex + inc) (sy - inc) (ey + inc)
      have es : ∀ z : ℚ, (z - inc) - (k' : ℚ) * inc = z - ((k' + 1 : ℕ) : ℚ) * inc := by
        intro z
        push_cast
        ring
      have ea : ∀ z : ℚ, (z + inc) + (k' : ℚ) * inc = z + ((k' + 1 : ℕ) : ℚ) * inc := by
        intro z
        push_cast
        ring
      rw [es sx, ea ex, es sy, ea ey]
      exact hcount
    · rw [if_neg hc]
      exact ⟨_, rfl⟩

/-- Claim C3: for every rectangle, every positive increment, and every
dataset with at least the threshold number of rows, the recursive
expansion of `write_tile` terminates — some finite fuel returns a tile. -/
theorem c3_write_tile_terminates (df : List DRow) (sx ex sy ey : ℚ) (minT : ℕ)
    (inc : ℚ) (hinc : 0 < inc) (hmin : minT ≤ df.length) :
    ∃ (fuel : ℕ) (res : Tile), write_tile df sx ex sy ey minT inc fuel = some res := by
  obtain ⟨K1, hK1⟩ := exists_upper_bound (fun r => sx - r.x_location) df
  obtain ⟨K2, hK2⟩ := exists_upper_bound (fun r => r.x_location - ex) df
  obtain ⟨K3, hK3⟩ := exists_upper_bound (fun r => sy - r.y_location) df
  obtain ⟨K4, hK4⟩ := exists_upper_bound (fun r => r.y_location - ey) df
  obtain ⟨n, hn⟩ := exists_nat_gt (max (max K1 K2) (max K3 K4) / inc)
  have hcov : max (max K1 K2) (max K3 K4) ≤ (n : ℚ) * inc :=
    le_of_lt ((div_lt_iff₀ hinc).mp hn)
  have hfull : tileFiltered df (sx - n * inc) (ex + n * inc)
      (sy - n * inc) (ey + n * inc) = df := by
    rw [tileFiltered_eq]
    apply List.filter_eq_self.mpr
    intro r hr
    rw [decide_eq_true_eq]
    have b1 := hK1 r hr
    have b2 := hK2 r hr
    have b3 := hK3 r hr
    have b4 := hK4 r hr
    simp only at b1 b2 b3 b4
    have m1 : K1 ≤ (n : ℚ) * inc := le_trans (le_trans (le_max_left _ _) (le_max_left _ _)) hcov
    have m2 : K2 ≤ (n : ℚ) * inc := le_trans (le_trans (le_max_right _ _) (le_max_left _ _)) hcov
    have m3 : K3 ≤ (n : ℚ) * inc := le_trans (le_trans (le_max_left _ _) (le_max_right _ _)) hcov
    have m4 : K4 ≤ (n : ℚ) * inc := le_trans (le_trans (le_max_right _ _) (le_max_right _ _)) hcov
    exact ⟨by linarith, by linarith, by linarith, by linarith⟩
  obtain ⟨res, hres⟩ := write_tile_reaches df minT inc n sx ex sy ey (by rw [hfull]; exact hmin)
  exact ⟨n + 1, res, hres⟩

/-- Witness for `c3_write_tile_terminates` on a one-row dataset with
threshold `1` and increment `1`. -/
theorem c3_write_tile_terminates_witness :
    ∃ (fuel : ℕ) (res : Tile), write_tile [tileRowExample] 5 6 5 6 1 1 fuel = some res :=
  c3_write_tile_terminates [tileRowExample] 5 6 5 6 1 1 (by norm_num) (by decide)

/-! ## The tile loop -/

theorem positionsAux_ge (hi step : ℚ) (hstep : 0 < step) :
    ∀ (fuel : ℕ) (x z : ℚ), z ∈ positionsAux hi step x fuel → x ≤ z := by
  intro fuel
  induction fuel with
  | zero =>
    intro x z hz
    simp [positionsAux] at hz
  | succ f ih =>
    intro x z hz
    simp only [positionsAux] at hz
    by_cases hx : x ≤ hi
    · rw [if_pos hx] at hz
      rcases List.mem_cons.mp hz with rfl | hz'
      · exact le_refl z
      · have := ih (x + step) z hz'
        linarith
    · rw [if_neg hx] at hz
      simp at hz

theorem positionsAux_pairwise (hi step : ℚ) (hstep : 0 < step) :
    ∀ (fuel : ℕ) (x : ℚ), (positionsAux hi step x fuel).Pairwise (· < ·) := by
  intro fuel
  induction fuel with
  | zero =>
    intro x
    simp [positionsAux]
  | succ f ih =>
    intro x
    simp only [positionsAux]
    by_cases hx : x ≤ hi
    · rw [if_pos hx]
      refine List.Pairwise.cons ?_ (ih (x + step))
      intro z hz
      have := positionsAux_ge hi step hstep f (x + step) z hz
      linarith
    · rw [if_neg hx]
      exact List.Pairwise.nil

/-- Two expanded tile rectangles are equal only if they were requested at
the same cursor position: adding the two x-bound equations cancels the
expansion terms. -/
theorem rect_eq_imp_pos {x1 y1 x2 y2 w h o : ℚ} {k1 k2 : ℕ}
    (heq : ((x1 - k1 * o, x1 + w + k1 * o, y1 - k1 * o, y1 + h + k1 * o) : ℚ × ℚ × ℚ × ℚ)
      = (x2 - k2 * o, x2 + w + k2 * o, y2 - k2 * o, y2 + h + k2 * o)) :
    x1 = x2 ∧ y1 = y2 := by
  simp only [Prod.mk.injEq] at heq
  obtain ⟨e1, e2, e3, e4⟩ := heq
  constructor <;> linarith

/-- Claim C7: whenever the tile width and height exceed the overlap (the
precondition the source intends to validate), any two tiles materialized
by the partitioning loop — including tiles whose bounds were expanded —
have distinct bound rectangles, hence distinct output filenames, so no
tile overwrites another within the same run. -/
theorem c7_tile_names_distinct (df : List DRow) (w h o xmin xmax ymin ymax : ℚ)
    (minT fy fx fw : ℕ) (hw : o < w) (hh : o < h) :
    (tileLoop df w h o xmin xmax ymin ymax minT fy fx fw).Pairwise
      (fun p q => ∀ r1 r2 : Tile, p.2 = some r1 → q.2 = some r2 → r1.1 ≠ r2.1) := by
  unfold tileLoop
  rw [List.pairwise_flatMap]
  constructor
  · intro y _
    rw [List.pairwise_map]
    refine (positionsAux_pairwise xmax (w - o) (by linarith) fx xmin).imp ?_
    intro x1 x2 hlt r1 r2 h1 h2
    obtain ⟨rect1, rows1⟩ := r1
    obtain ⟨rect2, rows2⟩ := r2
    simp only at h1 h2 ⊢
    obtain ⟨k1, hk1, -, -, -⟩ := write_tile_some df fw x1 (x1 + w) y (y + h) minT o rect1 rows1 h1
    obtain ⟨k2, hk2, -, -, -⟩ := write_tile_some df fw x2 (x2 + w) y (y + h) minT o rect2 rows2 h2
    intro hcontra
    rw [hk1, hk2] at hcontra
    have := (rect_eq_imp_pos hcontra).1
    exact absurd this (ne_of_lt hlt)
  · refine (positionsAux_pairwise ymax (h - o) (by linarith) fy ymin).imp ?_
    intro y1 y2 hlt a ha b hb r1 r2 h1 h2
    obtain ⟨xa, hxa, rfl⟩ := List.mem_map.mp ha
    obtain ⟨xb, hxb, rfl⟩ := List.mem_map.mp hb
    obtain ⟨rect1, rows1⟩ := r1
    obtain ⟨rect2, rows2⟩ := r2
    simp only at h1 h2 ⊢
    obtain ⟨k1, hk1, -, -, -⟩ := write_tile_some df fw xa (xa + w) y1 (y1 + h) minT o rect1 rows1 h1
    obtain ⟨k2, hk2, -, -, -⟩ := write_tile_some df fw xb (xb + w) y2 (y2 + h) minT o rect2 rows2 h2
    intro hcontra
    rw [hk1, hk2] at hcontra
    have := (rect_eq_imp_pos hcontra).2
    exact absurd this (ne_of_lt hlt)

/-- Witness for `c7_tile_names_distinct` on a concrete 2-by-2 grid. -/
theorem c7_tile_names_distinct_witness :
    (tileLoop [tileRowExample] 2 2 1 0 1 0 1 0 2 2 1).Pairwise
      (fun p q => ∀ r1 r2 : Tile, p.2 = some r1 → q.2 = some r2 → r1.1 ≠ r2.1) :=
  c7_tile_names_distinct [tileRowExample] 2 2 1 0 1 0 1 0 2 2 1
    (by norm_num) (by norm_num)

/-! ## The run pipeline -/

/-- Claim C8: two runs that differ only in the minimum Q-score threshold
produce identical tile outputs (same tile rectangles, hence the same
filenames, and the same rows) and identical errors; only the `params.txt`
component of the output can differ, because `min_qv` is never applied as
a row filter. -/
theorem c8_min_qv_invisible (a1 a2 : Args) (input : List Row) (fy fx fw : ℕ)
    (h1 : a1.in_file = a2.in_file) (h2 : a1.width = a2.width) (h3 : a1.height = a2.height)
    (h4 : a1.overlap = a2.overlap) (h5 : a1.minimal_transcripts = a2.minimal_transcripts)
    (h6 : a1.nucleus_only = a2.nucleus_only) (h7 : a1.out_dir = a2.out_dir) :
    (runModel a1 input fy fx fw).map Prod.fst = (runModel a2 input fy fx fw).map Prod.fst := by
  unfold runModel
  rw [h1, h2, h3, h4, h5, h6]
  cases runCore a2.in_file a2.width a2.height a2.overlap a2.minimal_transcripts
      a2.nucleus_only input fy fx fw with
  | error e => rfl
  | ok t => rfl

/-- Witness for `c8_min_qv_invisible`: the example configuration with
`min_qv = 20` against the same configuration with `min_qv = 30`. -/
theorem c8_min_qv_invisible_witness :
    (runModel argsExample [rowExample] 1 1 1).map Prod.fst
      = (runModel argsExampleHighQv [rowExample] 1 1 1).map Prod.fst :=
  c8_min_qv_invisible argsExample argsExampleHighQv [rowExample] 1 1 1
    rfl rfl rfl rfl rfl rfl rfl

/-- Claim C1 (code bug): the source checks `args.width <= args.overlap`
twice — the second check's error message mentions the height, but
`args.height` is never compared — so a configuration whose height does
not exceed the overlap is NOT rejected: with width `4`, height `1`,
overlap `2` the run proceeds past validation, reads the input and
produces tiles, while the same run with width `1` is correctly
aborted by the width check. -/
theorem c1_height_check_missing :
    badHeightArgs.height ≤ badHeightArgs.overlap ∧
    badHeightArgs.overlap < badHeightArgs.width ∧
    runOk (runModel badHeightArgs [rowExample] 1 1 1) = true ∧
    runOk (runModel badWidthArgs [rowExample] 1 1 1) = false := by
  with_unfolding_all decide

end TileXenium
